import Mathlib

/-!
Verification of the white-background-removal strategies in
scripts/remove_white_bg.py: the fixed-threshold whitener
(remove_white_background), the edge-aware whitener
(remove_near_white_with_edges) and the background-color-adaptive
sprite-sheet processor (process_sprite_sheet).

The embedding models a decoded RGBA image as a grid of pixels (row-major,
as PIL exposes it through getdata/load).  File decoding and saving are the
external codec collaborators and stay outside the model; each strategy is
the pure transformation the per-pixel loops perform on the grid.
-/

/-- A pixel: the four 8-bit channels red, green, blue, alpha, as the RGBA
4-tuples PIL hands to the loops. -/
structure Pixel where
  r : ℕ
  g : ℕ
  b : ℕ
  a : ℕ
deriving DecidableEq, Repr

/-- A decoded image: its dimensions plus the row-major grid of pixels. -/
structure Image where
  width : ℕ
  height : ℕ
  rows : List (List Pixel)
deriving DecidableEq, Repr

/-- Pixel returned by out-of-range total reads (never observed on a
well-formed image at in-range coordinates). -/
def defaultPixel : Pixel := ⟨0, 0, 0, 0⟩

/-- Total read of the pixel at column x of row y. -/
def getPixel (img : Image) (x y : ℕ) : Pixel :=
  (img.rows.getD y []).getD x defaultPixel

/-- Fallible pixel read: pixels[x, y] raises IndexError when the coordinate
does not address a pixel, modeled as none. -/
def getPix? (img : Image) (x y : ℕ) : Option Pixel :=
  img.rows[y]?.bind (fun row => row[x]?)

/-- Well-formed image: the grid has exactly height rows, each row exactly
width pixels (the data-model invariant of a decoded image). -/
def WF (img : Image) : Prop :=
  img.rows.length = img.height ∧ ∀ row ∈ img.rows, row.length = img.width

instance (img : Image) : Decidable (WF img) := by
  unfold WF; infer_instance

/-! ## Fixed-threshold whitener: remove_white_background -/

/-- Default of the tolerance parameter of remove_white_background. -/
def remove_white_background_default_tolerance : ℤ := 30

/-- Near-white test of remove_white_background:
r > 255 - tolerance and g > 255 - tolerance and b > 255 - tolerance,
computed on integers exactly as Python does (tolerance may exceed 255,
making the bound negative). -/
def isNearWhite (t : ℤ) (p : Pixel) : Bool :=
  decide (255 - t < (p.r : ℤ)) && decide (255 - t < (p.g : ℤ)) &&
    decide (255 - t < (p.b : ℤ))

/-- Transparent copy of a pixel: the written tuple (r, g, b, 0). -/
def zeroAlpha (p : Pixel) : Pixel := ⟨p.r, p.g, p.b, 0⟩

/-- Per-pixel action of remove_white_background on one item of getdata():
near-white pixels are appended as (r, g, b, 0), all others unchanged. -/
def whitenPixel (t : ℤ) (p : Pixel) : Pixel :=
  if isNearWhite t p then zeroAlpha p else p

/-- remove_white_background: getdata yields the grid row-major, the loop
rebuilds the sequence item by item through whitenPixel, and putdata writes
it back into the same-size image, so the bulk rewrite is the row-wise map.
Dimensions are untouched. -/
def remove_white_background (t : ℤ) (img : Image) : Image :=
  { img with rows := img.rows.map (fun row => row.map (whitenPixel t)) }

/-! ## Edge-aware whitener: remove_near_white_with_edges -/

/-- Default of the tolerance parameter of remove_near_white_with_edges. -/
def remove_near_white_with_edges_default_tolerance : ℤ := 40

/-- The is_white_ish helper: r > 255 - tol and g > 255 - tol and
b > 255 - tol. -/
def is_white_ish (r g b : ℕ) (tol : ℤ) : Bool :=
  decide (255 - tol < (r : ℤ)) && decide (255 - tol < (g : ℤ)) &&
    decide (255 - tol < (b : ℤ))

/-- First pass of remove_near_white_with_edges: scan y then x and collect
into to_remove every coordinate whose pixel satisfies is_white_ish. -/
def to_remove (t : ℤ) (img : Image) : List (ℕ × ℕ) :=
  (List.range img.height).flatMap (fun y =>
    (List.range img.width).filterMap (fun x =>
      if is_white_ish (getPixel img x y).r (getPixel img x y).g
          (getPixel img x y).b t
      then some (x, y) else none))

/-- One write of the apply pass: read the current pixel at the coordinate
and write back its RGB with alpha 0 (a no-op off the grid, where the
collection pass never produces a coordinate anyway). -/
def applyRemoveAt (img : Image) (c : ℕ × ℕ) : Image :=
  { img with
    rows := img.rows.set c.2
      ((img.rows.getD c.2 []).set c.1 (zeroAlpha (getPixel img c.1 c.2))) }

/-- remove_near_white_with_edges: collect to_remove on the untouched image,
then zero the alpha of each collected coordinate in turn. -/
def remove_near_white_with_edges (t : ℤ) (img : Image) : Image :=
  (to_remove t img).foldl applyRemoveAt img

/-! ## Background-color-adaptive processor: process_sprite_sheet -/

/-- The internal tolerance constant of process_sprite_sheet. -/
def spriteTolerance : ℕ := 35

/-- An RGB triple, the type of the background estimate. -/
structure RGB where
  r : ℕ
  g : ℕ
  b : ℕ
deriving DecidableEq, Repr

/-- Background estimate from the four corner reads: per-channel sum
floor-divided by 4. -/
def cornerAvg (c1 c2 c3 c4 : Pixel) : RGB :=
  ⟨(c1.r + c2.r + c3.r + c4.r) / 4,
   (c1.g + c2.g + c3.g + c4.g) / 4,
   (c1.b + c2.b + c3.b + c4.b) / 4⟩

/-- Manhattan distance from a pixel's RGB to the estimate:
abs(r - avg_r) + abs(g - avg_g) + abs(b - avg_b) on integers. -/
def colorDist (bg : RGB) (p : Pixel) : ℕ :=
  ((p.r : ℤ) - bg.r).natAbs + ((p.g : ℤ) - bg.g).natAbs +
    ((p.b : ℤ) - bg.b).natAbs

/-- Ramp alpha int((dist - tolerance) / (tolerance * 2) * 255): the Python
float expression truncates to exactly floor((dist - 35) * 255 / 70) at every
distance, so the embedding uses exact natural division. -/
def rampAlpha (dist : ℕ) : ℕ :=
  (dist - spriteTolerance) * 255 / (spriteTolerance * 2)

/-- Per-pixel classification of process_sprite_sheet against the fixed
estimate: full transparency below the tolerance, the clamped ramp below
three times the tolerance, untouched beyond. -/
def classifyPixel (bg : RGB) (p : Pixel) : Pixel :=
  if colorDist bg p < spriteTolerance * 3 then
    if colorDist bg p < spriteTolerance then ⟨p.r, p.g, p.b, 0⟩
    else ⟨p.r, p.g, p.b, min 255 (max 0 (rampAlpha (colorDist bg p)))⟩
  else p

/-- process_sprite_sheet: read the four corner pixels (each read raises on
an image with no pixel at that coordinate, so a zero-dimension image fails
before anything is written, modeled by none), average them into the
background estimate, then rewrite every pixel through classifyPixel.
Dimensions are untouched; the saved output exists only on success. -/
def process_sprite_sheet (img : Image) : Option Image := do
  let c1 ← getPix? img 0 0
  let c2 ← getPix? img (img.width - 1) 0
  let c3 ← getPix? img 0 (img.height - 1)
  let c4 ← getPix? img (img.width - 1) (img.height - 1)
  let bg := cornerAvg c1 c2 c3 c4
  some { img with rows := img.rows.map (fun row => row.map (classifyPixel bg)) }

/-- The background estimate through total corner reads; on a well-formed
image with positive dimensions it coincides with what the fallible reads
produce. -/
def cornerAvgTotal (img : Image) : RGB :=
  cornerAvg (getPixel img 0 0) (getPixel img (img.width - 1) 0)
    (getPixel img 0 (img.height - 1))
    (getPixel img (img.width - 1) (img.height - 1))

/-- Modelled from the spec claim wording for the ramp zone only:
clamp(0, 255, round((dist - T) / (2T) x 255)) with round to nearest,
written over naturals as floor of the value plus one half. -/
def specRampAlphaRound (dist : ℕ) : ℕ :=
  min 255 (max 0 (((dist - spriteTolerance) * 255 * 2 + spriteTolerance * 2) /
    (spriteTolerance * 2 * 2)))

/-- Total form of process_sprite_sheet: the rewrite it performs once the
four corner reads have succeeded (equal to the fallible computation on a
well-formed image with positive dimensions). -/
def processTotal (img : Image) : Image :=
  { img with
    rows := img.rows.map (fun row => row.map (classifyPixel (cornerAvgTotal img))) }

/-! ## Concrete example images -/

/-- A 3 x 1 image whose corners are black, so the background estimate is
(0, 0, 0), and whose middle pixel sits at Manhattan distance 36, one unit
into the ramp zone. -/
def imgRamp36 : Image := ⟨3, 1, [[⟨0, 0, 0, 255⟩, ⟨36, 0, 0, 255⟩, ⟨0, 0, 0, 255⟩]]⟩

/-- A 4 x 1 image with black corners: pixel (1,0) at distance 104 (ramp),
pixel (2,0) at distance 105 (cutoff) with original alpha 0. -/
def imgMono : Image :=
  ⟨4, 1, [[⟨0, 0, 0, 255⟩, ⟨104, 0, 0, 255⟩, ⟨105, 0, 0, 0⟩, ⟨0, 0, 0, 255⟩]]⟩

/-- A 3 x 1 image with black corners whose middle pixel sits at distance
exactly 105 = 3 x 35 with original alpha 7. -/
def imgCutoff : Image := ⟨3, 1, [[⟨0, 0, 0, 255⟩, ⟨105, 0, 0, 7⟩, ⟨0, 0, 0, 255⟩]]⟩

/-- A 1 x 2 image whose two (coinciding-corner) pixels have distinct
colors, so the corner average matches neither. -/
def imgTall : Image := ⟨1, 2, [[⟨0, 0, 0, 255⟩], [⟨100, 0, 0, 255⟩]]⟩

/-- A 1 x 1 image with a single gray pixel. -/
def imgOne : Image := ⟨1, 1, [[⟨10, 20, 30, 255⟩]]⟩

/-- A 0 x 2 image: two rows, no pixel in either. -/
def imgZeroWidth : Image := ⟨0, 2, [[], []]⟩

/-- A 2 x 1 image with one near-white and one dark pixel. -/
def imgSmall : Image := ⟨2, 1, [[⟨230, 230, 230, 255⟩, ⟨10, 20, 30, 40⟩]]⟩

/-! ## Basic lemmas about the embedding -/

theorem zeroAlpha_idem (p : Pixel) : zeroAlpha (zeroAlpha p) = zeroAlpha p := rfl

theorem getPixel_eq (img : Image) (x y : ℕ) (hy : y < img.rows.length)
    (hx : x < img.rows[y].length) : getPixel img x y = img.rows[y][x] := by
  unfold getPixel
  rw [List.getD_eq_getElem _ _ hy, List.getD_eq_getElem _ _ hx]

theorem WF_row_length (img : Image) (hwf : WF img) (y : ℕ)
    (hy : y < img.rows.length) : img.rows[y].length = img.width :=
  hwf.2 _ (List.getElem_mem hy)

theorem getPix?_eq_some (img : Image) (hwf : WF img) (x y : ℕ)
    (hx : x < img.width) (hy : y < img.height) :
    getPix? img x y = some (getPixel img x y) := by
  have hy' : y < img.rows.length := by rw [hwf.1]; exact hy
  have hx' : x < img.rows[y].length := by
    rw [WF_row_length img hwf y hy']; exact hx
  unfold getPix?
  rw [List.getElem?_eq_getElem hy']
  simp only [Option.some_bind]
  rw [List.getElem?_eq_getElem hx', getPixel_eq img x y hy' hx']

theorem process_eq_some (img : Image) (hwf : WF img) (hw : 0 < img.width)
    (hh : 0 < img.height) :
    process_sprite_sheet img = some (processTotal img) := by
  have h1 := getPix?_eq_some img hwf 0 0 hw hh
  have h2 := getPix?_eq_some img hwf (img.width - 1) 0 (Nat.sub_lt hw one_pos) hh
  have h3 := getPix?_eq_some img hwf 0 (img.height - 1) hw (Nat.sub_lt hh one_pos)
  have h4 := getPix?_eq_some img hwf (img.width - 1) (img.height - 1)
    (Nat.sub_lt hw one_pos) (Nat.sub_lt hh one_pos)
  unfold process_sprite_sheet
  rw [h1, h2, h3, h4]
  rfl

theorem getPixel_mapRows (img : Image) (f : Pixel → Pixel) (x y : ℕ)
    (hy : y < img.rows.length) (hx : x < img.rows[y].length) :
    getPixel { img with rows := img.rows.map (fun row => row.map f) } x y =
      f (getPixel img x y) := by
  rw [getPixel_eq img x y hy hx]
  unfold getPixel
  simp [List.getD_eq_getElem?_getD, List.getElem?_map,
    List.getElem?_eq_getElem hy, List.getElem?_eq_getElem hx]

theorem getPixel_default_of_row (img : Image) (x y : ℕ)
    (hy : img.rows.length ≤ y) : getPixel img x y = defaultPixel := by
  unfold getPixel
  rw [List.getD_eq_default _ _ hy]
  simp [List.getD_eq_getElem?_getD]

theorem getPixel_default_of_col (img : Image) (x y : ℕ)
    (hy : y < img.rows.length) (hx : img.rows[y].length ≤ x) :
    getPixel img x y = defaultPixel := by
  unfold getPixel
  rw [List.getD_eq_getElem _ _ hy, List.getD_eq_default _ _ hx]

theorem classifyPixel_rgb (bg : RGB) (p : Pixel) :
    (classifyPixel bg p).r = p.r ∧ (classifyPixel bg p).g = p.g ∧
      (classifyPixel bg p).b = p.b := by
  unfold classifyPixel
  split_ifs <;> exact ⟨rfl, rfl, rfl⟩

theorem colorDist_classifyPixel (bg bg2 : RGB) (p : Pixel) :
    colorDist bg (classifyPixel bg2 p) = colorDist bg p := by
  unfold classifyPixel
  split_ifs <;> rfl

theorem classifyPixel_idem (bg : RGB) (p : Pixel) :
    classifyPixel bg (classifyPixel bg p) = classifyPixel bg p := by
  by_cases h1 : colorDist bg p < spriteTolerance * 3
  · by_cases h2 : colorDist bg p < spriteTolerance
    · have houter : classifyPixel bg p = ⟨p.r, p.g, p.b, 0⟩ := by
        unfold classifyPixel; rw [if_pos h1, if_pos h2]
      rw [houter]
      have hd2 : colorDist bg (⟨p.r, p.g, p.b, 0⟩ : Pixel) = colorDist bg p := rfl
      unfold classifyPixel
      rw [hd2, if_pos h1, if_pos h2]
    · have houter : classifyPixel bg p =
          ⟨p.r, p.g, p.b, min 255 (max 0 (rampAlpha (colorDist bg p)))⟩ := by
        unfold classifyPixel; rw [if_pos h1, if_neg h2]
      rw [houter]
      have hd2 : colorDist bg
          (⟨p.r, p.g, p.b, min 255 (max 0 (rampAlpha (colorDist bg p)))⟩ : Pixel) =
          colorDist bg p := rfl
      unfold classifyPixel
      rw [hd2, if_pos h1, if_neg h2]
  · have houter : classifyPixel bg p = p := by
      unfold classifyPixel; rw [if_neg h1]
    rw [houter]
    unfold classifyPixel
    rw [if_neg h1]

theorem getPixel_mapRows_all (img : Image) (f : Pixel → Pixel) (x y : ℕ) :
    getPixel { img with rows := img.rows.map (fun row => row.map f) } x y =
      (if hy : y < img.rows.length then
        (if x < img.rows[y].length then f (getPixel img x y) else defaultPixel)
      else defaultPixel) := by
  split
  · next hy =>
    split
    · next hx => exact getPixel_mapRows img f x y hy hx
    · next hx =>
      push_neg at hx
      refine getPixel_default_of_col _ x y ?_ ?_
      · simpa using hy
      · simpa using hx
  · next hy =>
    push_neg at hy
    refine getPixel_default_of_row _ x y ?_
    simpa using hy

/-- C3: the Background-Color-Adaptive Processor never modifies any pixel's
R, G or B channel and keeps the image dimensions: whenever
process_sprite_sheet succeeds, the output has the same width and height and
every pixel of the output has the same RGB as the corresponding input
pixel. -/
theorem adaptive_preserves_rgb_and_dims (img img2 : Image)
    (hsome : process_sprite_sheet img = some img2) :
    img2.width = img.width ∧ img2.height = img.height ∧
      ∀ x y, (getPixel img2 x y).r = (getPixel img x y).r ∧
        (getPixel img2 x y).g = (getPixel img x y).g ∧
        (getPixel img2 x y).b = (getPixel img x y).b := by
  unfold process_sprite_sheet at hsome
  cases h1 : getPix? img 0 0 with
  | none => rw [h1] at hsome; exact absurd hsome (by simp)
  | some c1 =>
  cases h2 : getPix? img (img.width - 1) 0 with
  | none => rw [h1, h2] at hsome; exact absurd hsome (by simp)
  | some c2 =>
  cases h3 : getPix? img 0 (img.height - 1) with
  | none => rw [h1, h2, h3] at hsome; exact absurd hsome (by simp)
  | some c3 =>
  cases h4 : getPix? img (img.width - 1) (img.height - 1) with
  | none => rw [h1, h2, h3, h4] at hsome; exact absurd hsome (by simp)
  | some c4 =>
  rw [h1, h2, h3, h4] at hsome
  have himg2 : ({ img with
      rows := img.rows.map
        (fun row => row.map (classifyPixel (cornerAvg c1 c2 c3 c4))) } : Image) =
      img2 := Option.some.inj hsome
  subst himg2
  refine ⟨rfl, rfl, fun x y => ?_⟩
  rw [getPixel_mapRows_all img (classifyPixel (cornerAvg c1 c2 c3 c4)) x y]
  split
  · next hy =>
    split
    · exact classifyPixel_rgb _ _
    · next hx =>
      rw [getPixel_default_of_col img x y hy (by omega)]
      exact ⟨rfl, rfl, rfl⟩
  · next hy =>
    rw [getPixel_default_of_row img x y (by omega)]
    exact ⟨rfl, rfl, rfl⟩

theorem adaptive_preserves_rgb_and_dims_witness :
    (⟨1, 1, [[⟨10, 20, 30, 0⟩]]⟩ : Image).width = imgOne.width ∧
      (⟨1, 1, [[⟨10, 20, 30, 0⟩]]⟩ : Image).height = imgOne.height ∧
      ∀ x y, (getPixel ⟨1, 1, [[⟨10, 20, 30, 0⟩]]⟩ x y).r = (getPixel imgOne x y).r ∧
        (getPixel ⟨1, 1, [[⟨10, 20, 30, 0⟩]]⟩ x y).g = (getPixel imgOne x y).g ∧
        (getPixel ⟨1, 1, [[⟨10, 20, 30, 0⟩]]⟩ x y).b = (getPixel imgOne x y).b :=
  adaptive_preserves_rgb_and_dims imgOne ⟨1, 1, [[⟨10, 20, 30, 0⟩]]⟩ (by decide)

/-- C5: on a well-formed image, process_sprite_sheet fails (producing no
output image) exactly when the width or the height is zero: the very first
corner read raises before anything is written; on every image with
positive dimensions it succeeds. -/
theorem adaptive_fails_iff_zero_dim (img : Image) (hwf : WF img) :
    process_sprite_sheet img = none ↔ img.width = 0 ∨ img.height = 0 := by
  constructor
  · intro hnone
    by_contra hcon
    push_neg at hcon
    have hw : 0 < img.width := Nat.pos_of_ne_zero hcon.1
    have hh : 0 < img.height := Nat.pos_of_ne_zero hcon.2
    rw [process_eq_some img hwf hw hh] at hnone
    exact Option.noConfusion hnone
  · intro h
    have hfail : getPix? img 0 0 = none := by
      unfold getPix?
      rcases h with h | h
      · cases hrow : img.rows[0]? with
        | none => rfl
        | some row =>
          have hmem : row ∈ img.rows := List.getElem?_mem hrow
          have hlen : row.length = 0 := by rw [hwf.2 row hmem, h]
          rw [Option.some_bind, List.getElem?_eq_none (by omega)]
      · have hnil : img.rows = [] := by
          have : img.rows.length = 0 := by rw [hwf.1, h]
          exact List.length_eq_zero.mp this
        rw [hnil]
        rfl
    unfold process_sprite_sheet
    rw [hfail]
    rfl

theorem adaptive_fails_iff_zero_dim_witness :
    process_sprite_sheet imgZeroWidth = none ↔
      imgZeroWidth.width = 0 ∨ imgZeroWidth.height = 0 :=
  adaptive_fails_iff_zero_dim imgZeroWidth (by decide)

/-- C4: the fixed-threshold whitener turns every pixel whose three color
channels all exceed 255 - tolerance into (r, g, b, 0) and leaves every
other pixel entirely unchanged, alpha included; its default tolerance
is 30. -/
theorem fixed_threshold_pixel_rule (t : ℤ) (img : Image) (x y : ℕ)
    (hwf : WF img) (hx : x < img.width) (hy : y < img.height) :
    (getPixel (remove_white_background t img) x y =
      if 255 - t < ((getPixel img x y).r : ℤ) ∧
          255 - t < ((getPixel img x y).g : ℤ) ∧
          255 - t < ((getPixel img x y).b : ℤ) then
        ⟨(getPixel img x y).r, (getPixel img x y).g, (getPixel img x y).b, 0⟩
      else getPixel img x y) ∧
    remove_white_background_default_tolerance = 30 := by
  refine ⟨?_, rfl⟩
  have hy2 : y < img.rows.length := by rw [hwf.1]; exact hy
  have hx2 : x < img.rows[y].length := by
    rw [WF_row_length img hwf y hy2]; exact hx
  unfold remove_white_background
  rw [getPixel_mapRows img (whitenPixel t) x y hy2 hx2]
  unfold whitenPixel isNearWhite zeroAlpha
  by_cases h : 255 - t < ((getPixel img x y).r : ℤ) ∧
      255 - t < ((getPixel img x y).g : ℤ) ∧
      255 - t < ((getPixel img x y).b : ℤ)
  · rw [if_pos h]
    simp [h.1, h.2.1, h.2.2]
  · rw [if_neg h]
    simp only [not_and_or, not_lt] at h
    rcases h with h | h | h <;> simp [not_lt.mpr h]

theorem fixed_threshold_pixel_rule_witness :
    (getPixel (remove_white_background 30 imgSmall) 0 0 =
      if (255 : ℤ) - 30 < ((getPixel imgSmall 0 0).r : ℤ) ∧
          (255 : ℤ) - 30 < ((getPixel imgSmall 0 0).g : ℤ) ∧
          (255 : ℤ) - 30 < ((getPixel imgSmall 0 0).b : ℤ) then
        ⟨(getPixel imgSmall 0 0).r, (getPixel imgSmall 0 0).g,
          (getPixel imgSmall 0 0).b, 0⟩
      else getPixel imgSmall 0 0) ∧
    remove_white_background_default_tolerance = 30 :=
  fixed_threshold_pixel_rule 30 imgSmall 0 0 (by decide) (by decide) (by decide)

/-- C10: for any tolerance of at least 256 the whiteness bound 255 - t is
negative, so every channel of every pixel passes the test and the
fixed-threshold whitener makes every pixel fully transparent, keeping its
RGB; the function is total, so no error is raised. -/
theorem oversized_tolerance_clears_all (t : ℤ) (ht : 256 ≤ t) (img : Image)
    (x y : ℕ) (hwf : WF img) (hx : x < img.width) (hy : y < img.height) :
    getPixel (remove_white_background t img) x y =
      zeroAlpha (getPixel img x y) := by
  have hy2 : y < img.rows.length := by rw [hwf.1]; exact hy
  have hx2 : x < img.rows[y].length := by
    rw [WF_row_length img hwf y hy2]; exact hx
  unfold remove_white_background
  rw [getPixel_mapRows img (whitenPixel t) x y hy2 hx2]
  have hr : 255 - t < ((getPixel img x y).r : ℤ) := by
    have := Int.natCast_nonneg (getPixel img x y).r; omega
  have hg : 255 - t < ((getPixel img x y).g : ℤ) := by
    have := Int.natCast_nonneg (getPixel img x y).g; omega
  have hb : 255 - t < ((getPixel img x y).b : ℤ) := by
    have := Int.natCast_nonneg (getPixel img x y).b; omega
  simp [whitenPixel, isNearWhite, hr, hg, hb]

theorem oversized_tolerance_clears_all_witness :
    getPixel (remove_white_background 300 imgSmall) 1 0 =
      zeroAlpha (getPixel imgSmall 1 0) :=
  oversized_tolerance_clears_all 300 (by decide) imgSmall 1 0 (by decide)
    (by decide) (by decide)

theorem getPixel_processTotal (img : Image) (hwf : WF img) (x y : ℕ)
    (hx : x < img.width) (hy : y < img.height) :
    getPixel (processTotal img) x y =
      classifyPixel (cornerAvgTotal img) (getPixel img x y) := by
  have hy2 : y < img.rows.length := by rw [hwf.1]; exact hy
  have hx2 : x < img.rows[y].length := by
    rw [WF_row_length img hwf y hy2]; exact hx
  exact getPixel_mapRows img (classifyPixel (cornerAvgTotal img)) x y hy2 hx2

theorem processTotal_WF (img : Image) (hwf : WF img) : WF (processTotal img) := by
  constructor
  · show (img.rows.map _).length = img.height
    rw [List.length_map]
    exact hwf.1
  · intro row hrow
    rw [show (processTotal img).rows =
      img.rows.map (fun row => row.map (classifyPixel (cornerAvgTotal img))) from rfl,
      List.mem_map] at hrow
    obtain ⟨row0, hmem, rfl⟩ := hrow
    show (row0.map _).length = img.width
    rw [List.length_map]
    exact hwf.2 row0 hmem

theorem cornerAvgTotal_processTotal (img : Image) (hwf : WF img)
    (hw : 0 < img.width) (hh : 0 < img.height) :
    cornerAvgTotal (processTotal img) = cornerAvgTotal img := by
  have hw1 : img.width - 1 < img.width := Nat.sub_lt hw one_pos
  have hh1 : img.height - 1 < img.height := Nat.sub_lt hh one_pos
  have e1 := getPixel_processTotal img hwf 0 0 hw hh
  have e2 := getPixel_processTotal img hwf (img.width - 1) 0 hw1 hh
  have e3 := getPixel_processTotal img hwf 0 (img.height - 1) hw hh1
  have e4 := getPixel_processTotal img hwf (img.width - 1) (img.height - 1) hw1 hh1
  show cornerAvg (getPixel (processTotal img) 0 0) _ _ _ = _
  rw [show (processTotal img).width = img.width from rfl,
    show (processTotal img).height = img.height from rfl, e1, e2, e3, e4]
  unfold cornerAvg cornerAvgTotal
  simp only [(classifyPixel_rgb _ _).1, (classifyPixel_rgb _ _).2.1,
    (classifyPixel_rgb _ _).2.2]
  rfl

theorem processTotal_idem (img : Image) (hwf : WF img) (hw : 0 < img.width)
    (hh : 0 < img.height) : processTotal (processTotal img) = processTotal img := by
  have hbg := cornerAvgTotal_processTotal img hwf hw hh
  have hrows : (processTotal img).rows.map
      (fun row => row.map (classifyPixel (cornerAvgTotal (processTotal img)))) =
      (processTotal img).rows := by
    rw [hbg]
    show (img.rows.map _).map _ = img.rows.map _
    rw [List.map_map]
    congr 1
    funext row
    simp only [Function.comp]
    rw [List.map_map]
    congr 1
    funext p
    simp only [Function.comp]
    exact classifyPixel_idem _ p
  calc processTotal (processTotal img)
      = { processTotal img with
          rows := (processTotal img).rows.map
            (fun row => row.map (classifyPixel (cornerAvgTotal (processTotal img)))) } := rfl
    _ = { processTotal img with rows := (processTotal img).rows } := by rw [hrows]
    _ = processTotal img := rfl

/-- C1 as stated is false: the ramp computes int(...), truncation, not
rounding. In imgRamp36 the middle pixel has Manhattan distance 36 to the
estimate (0,0,0); the processor writes alpha 3 while the claimed formula
clamp(0,255, round((36 - 35) / 70 x 255)) = round(3.642) yields 4. -/
theorem ramp_round_counterexample :
    colorDist (cornerAvgTotal imgRamp36) (getPixel imgRamp36 1 0) = 36 ∧
    spriteTolerance ≤ 36 ∧ 36 < spriteTolerance * 3 ∧
    process_sprite_sheet imgRamp36 =
      some ⟨3, 1, [[⟨0, 0, 0, 0⟩, ⟨36, 0, 0, 3⟩, ⟨0, 0, 0, 0⟩]]⟩ ∧
    (getPixel (⟨3, 1, [[⟨0, 0, 0, 0⟩, ⟨36, 0, 0, 3⟩, ⟨0, 0, 0, 0⟩]]⟩ : Image) 1 0).a = 3 ∧
    specRampAlphaRound 36 = 4 ∧ (3 : ℕ) ≠ 4 := by decide

/-- C1 (amended): for every pixel whose Manhattan distance dist to the
background estimate satisfies T ≤ dist < 3T (T = 35), the output alpha is
clamp(0, 255, floor((dist - T) x 255 / (2T))) — the truncating division the
code's int(...) performs, not rounding to nearest — and the RGB is
unchanged. -/
theorem ramp_zone_alpha (img : Image) (x y : ℕ) (hwf : WF img)
    (hw : 0 < img.width) (hh : 0 < img.height)
    (hx : x < img.width) (hy : y < img.height)
    (hlo : spriteTolerance ≤ colorDist (cornerAvgTotal img) (getPixel img x y))
    (hhi : colorDist (cornerAvgTotal img) (getPixel img x y) < spriteTolerance * 3) :
    process_sprite_sheet img = some (processTotal img) ∧
    getPixel (processTotal img) x y =
      ⟨(getPixel img x y).r, (getPixel img x y).g, (getPixel img x y).b,
        min 255 (max 0
          ((colorDist (cornerAvgTotal img) (getPixel img x y) - spriteTolerance) *
            255 / (spriteTolerance * 2)))⟩ := by
  refine ⟨process_eq_some img hwf hw hh, ?_⟩
  rw [getPixel_processTotal img hwf x y hx hy]
  unfold classifyPixel
  rw [if_pos hhi, if_neg (not_lt.mpr hlo)]
  rfl

theorem ramp_zone_alpha_witness :
    process_sprite_sheet imgRamp36 = some (processTotal imgRamp36) ∧
    getPixel (processTotal imgRamp36) 1 0 =
      ⟨(getPixel imgRamp36 1 0).r, (getPixel imgRamp36 1 0).g,
        (getPixel imgRamp36 1 0).b,
        min 255 (max 0
          ((colorDist (cornerAvgTotal imgRamp36) (getPixel imgRamp36 1 0) -
            spriteTolerance) * 255 / (spriteTolerance * 2)))⟩ :=
  ramp_zone_alpha imgRamp36 1 0 (by decide) (by decide) (by decide) (by decide)
    (by decide) (by decide) (by decide)

/-- C6 as stated is false: a pixel at distance 105 (beyond the ramp) keeps
its original alpha, here 0, while the nearer pixel at distance 104 gets the
ramp alpha 251, so alpha is not monotone in distance. -/
theorem monotone_alpha_counterexample :
    colorDist (cornerAvgTotal imgMono) (getPixel imgMono 1 0) = 104 ∧
    colorDist (cornerAvgTotal imgMono) (getPixel imgMono 2 0) = 105 ∧
    process_sprite_sheet imgMono =
      some ⟨4, 1, [[⟨0, 0, 0, 0⟩, ⟨104, 0, 0, 251⟩, ⟨105, 0, 0, 0⟩, ⟨0, 0, 0, 0⟩]]⟩ ∧
    ¬((getPixel (⟨4, 1,
        [[⟨0, 0, 0, 0⟩, ⟨104, 0, 0, 251⟩, ⟨105, 0, 0, 0⟩, ⟨0, 0, 0, 0⟩]]⟩ : Image) 1 0).a ≤
      (getPixel (⟨4, 1,
        [[⟨0, 0, 0, 0⟩, ⟨104, 0, 0, 251⟩, ⟨105, 0, 0, 0⟩, ⟨0, 0, 0, 0⟩]]⟩ : Image) 2 0).a) := by
  decide

/-- C6 (amended): for a fixed background estimate, output alpha is monotone
in distance over pixels whose original alpha is 255 (fully opaque input);
for such pixels a smaller distance never yields a larger output alpha. The
restriction is forced: a pixel beyond the 3T cutoff keeps its original
alpha, which can undercut the ramp of a nearer pixel. -/
theorem monotone_alpha_opaque (bg : RGB) (p q : Pixel) (hp : p.a = 255)
    (hq : q.a = 255) (hlt : colorDist bg p < colorDist bg q) :
    (classifyPixel bg p).a ≤ (classifyPixel bg q).a := by
  unfold classifyPixel
  by_cases h1 : colorDist bg p < spriteTolerance * 3
  · by_cases h2 : colorDist bg p < spriteTolerance
    · rw [if_pos h1, if_pos h2]
      exact Nat.zero_le _
    · rw [if_pos h1, if_neg h2]
      by_cases h3 : colorDist bg q < spriteTolerance * 3
      · have h4 : ¬colorDist bg q < spriteTolerance := by omega
        rw [if_pos h3, if_neg h4]
        show min 255 (max 0 (rampAlpha (colorDist bg p))) ≤
          min 255 (max 0 (rampAlpha (colorDist bg q)))
        have hramp : rampAlpha (colorDist bg p) ≤ rampAlpha (colorDist bg q) :=
          Nat.div_le_div_right
            (Nat.mul_le_mul_right 255 (Nat.sub_le_sub_right (le_of_lt hlt) _))
        exact min_le_min (le_refl 255) (max_le_max (le_refl 0) hramp)
      · rw [if_neg h3]
        show min 255 (max 0 (rampAlpha (colorDist bg p))) ≤ q.a
        rw [hq]
        exact min_le_left _ _
  · have h3 : ¬colorDist bg q < spriteTolerance * 3 := by omega
    rw [if_neg h1, if_neg h3, hp, hq]

theorem monotone_alpha_opaque_witness :
    (⟨0, 0, 0, 255⟩ : Pixel).a = 255 ∧ (⟨200, 0, 0, 255⟩ : Pixel).a = 255 ∧
    colorDist ⟨0, 0, 0⟩ ⟨0, 0, 0, 255⟩ < colorDist ⟨0, 0, 0⟩ ⟨200, 0, 0, 255⟩ ∧
    (classifyPixel ⟨0, 0, 0⟩ ⟨0, 0, 0, 255⟩).a ≤
      (classifyPixel ⟨0, 0, 0⟩ ⟨200, 0, 0, 255⟩).a :=
  ⟨rfl, rfl, by decide,
    monotone_alpha_opaque ⟨0, 0, 0⟩ ⟨0, 0, 0, 255⟩ ⟨200, 0, 0, 255⟩ rfl rfl (by decide)⟩

/-- C7: the adaptive processor is idempotent on every well-formed image
with positive dimensions: running it on its own output reproduces that
output, because RGB (hence the corner estimate and every distance) is
preserved by the first pass and the per-pixel classification is
idempotent. -/
theorem adaptive_idempotent (img : Image) (hwf : WF img) (hw : 0 < img.width)
    (hh : 0 < img.height) :
    (process_sprite_sheet img).bind process_sprite_sheet =
      process_sprite_sheet img := by
  rw [process_eq_some img hwf hw hh, Option.some_bind,
    process_eq_some (processTotal img) (processTotal_WF img hwf) hw hh,
    processTotal_idem img hwf hw hh]

theorem adaptive_idempotent_witness :
    (process_sprite_sheet imgRamp36).bind process_sprite_sheet =
      process_sprite_sheet imgRamp36 :=
  adaptive_idempotent imgRamp36 (by decide) (by decide) (by decide)

/-- C8 as stated is false in its "fully opaque" half: the middle pixel of
imgCutoff sits at distance exactly 3T = 105 and is left entirely unchanged,
keeping its original alpha 7, which is not fully opaque (255). -/
theorem boundary_counterexample :
    colorDist (cornerAvgTotal imgCutoff) (getPixel imgCutoff 1 0) =
      spriteTolerance * 3 ∧
    process_sprite_sheet imgCutoff =
      some ⟨3, 1, [[⟨0, 0, 0, 0⟩, ⟨105, 0, 0, 7⟩, ⟨0, 0, 0, 0⟩]]⟩ ∧
    (getPixel (⟨3, 1, [[⟨0, 0, 0, 0⟩, ⟨105, 0, 0, 7⟩, ⟨0, 0, 0, 0⟩]]⟩ : Image) 1 0) =
      getPixel imgCutoff 1 0 ∧
    (getPixel (⟨3, 1, [[⟨0, 0, 0, 0⟩, ⟨105, 0, 0, 7⟩, ⟨0, 0, 0, 0⟩]]⟩ : Image) 1 0).a ≠ 255 := by
  decide

/-- C8 (amended): a pixel at distance exactly T = 35 lands in the ramp
branch and receives output alpha exactly 0 with RGB unchanged; a pixel at
distance exactly 3T = 105 is entirely unchanged (RGB and alpha untouched) —
hence fully opaque only when its input already was. -/
theorem boundary_behavior (img : Image) (x y : ℕ) (hwf : WF img)
    (hw : 0 < img.width) (hh : 0 < img.height)
    (hx : x < img.width) (hy : y < img.height) :
    process_sprite_sheet img = some (processTotal img) ∧
    (colorDist (cornerAvgTotal img) (getPixel img x y) = spriteTolerance →
      getPixel (processTotal img) x y =
        ⟨(getPixel img x y).r, (getPixel img x y).g, (getPixel img x y).b, 0⟩) ∧
    (colorDist (cornerAvgTotal img) (getPixel img x y) = spriteTolerance * 3 →
      getPixel (processTotal img) x y = getPixel img x y) := by
  refine ⟨process_eq_some img hwf hw hh, ?_, ?_⟩
  · intro hd
    rw [getPixel_processTotal img hwf x y hx hy]
    unfold classifyPixel
    rw [hd, if_pos (by norm_num [spriteTolerance]), if_neg (lt_irrefl _)]
    norm_num [rampAlpha, spriteTolerance]
  · intro hd
    rw [getPixel_processTotal img hwf x y hx hy]
    unfold classifyPixel
    rw [hd, if_neg (lt_irrefl _)]

theorem boundary_behavior_witness :
    process_sprite_sheet imgCutoff = some (processTotal imgCutoff) ∧
    (colorDist (cornerAvgTotal imgCutoff) (getPixel imgCutoff 1 0) = spriteTolerance →
      getPixel (processTotal imgCutoff) 1 0 =
        ⟨(getPixel imgCutoff 1 0).r, (getPixel imgCutoff 1 0).g,
          (getPixel imgCutoff 1 0).b, 0⟩) ∧
    (colorDist (cornerAvgTotal imgCutoff) (getPixel imgCutoff 1 0) = spriteTolerance * 3 →
      getPixel (processTotal imgCutoff) 1 0 = getPixel imgCutoff 1 0) :=
  boundary_behavior imgCutoff 1 0 (by decide) (by decide) (by decide) (by decide)
    (by decide)

/-- C9 as stated is false for 1 x N images with distinct end pixels: in the
1 x 2 image imgTall the coinciding corner reads average the two end colors,
giving the estimate (50, 0, 0), which is neither pixel's own color; the
processor still does not fail. -/
theorem corner_estimate_counterexample :
    cornerAvgTotal imgTall = ⟨50, 0, 0⟩ ∧
    (getPixel imgTall 0 0).r = 0 ∧ (getPixel imgTall 0 1).r = 100 ∧
    cornerAvgTotal imgTall ≠
      ⟨(getPixel imgTall 0 0).r, (getPixel imgTall 0 0).g, (getPixel imgTall 0 0).b⟩ ∧
    cornerAvgTotal imgTall ≠
      ⟨(getPixel imgTall 0 1).r, (getPixel imgTall 0 1).g, (getPixel imgTall 0 1).b⟩ ∧
    (process_sprite_sheet imgTall).isSome = true := by decide

/-- C9 (amended): the background estimate is the per-channel floor average
(sum divided by 4, truncating) of the four corner reads (0,0), (w-1,0),
(0,h-1), (w-1,h-1); on a width-1 image the corners coincide pairwise, the
processor still succeeds, and for a 1 x 1 image the estimate degenerates to
the single pixel's own color. For a 1 x N image with N > 1 the estimate is
the average of the two distinct end pixels, not a single pixel's color. -/
theorem corner_estimate_degenerate (img : Image) (hwf : WF img)
    (hw : img.width = 1) (hh : 0 < img.height) :
    process_sprite_sheet img = some (processTotal img) ∧
    cornerAvgTotal img =
      cornerAvg (getPixel img 0 0) (getPixel img 0 0)
        (getPixel img 0 (img.height - 1)) (getPixel img 0 (img.height - 1)) ∧
    (img.height = 1 →
      cornerAvgTotal img =
        ⟨(getPixel img 0 0).r, (getPixel img 0 0).g, (getPixel img 0 0).b⟩) := by
  refine ⟨process_eq_some img hwf (by omega) hh, ?_, ?_⟩
  · unfold cornerAvgTotal
    rw [hw]
  · intro hone
    unfold cornerAvgTotal cornerAvg
    rw [hw, hone]
    simp only [Nat.sub_self]
    have hquarter : ∀ n : ℕ, (n + n + n + n) / 4 = n := fun n => by omega
    rw [hquarter, hquarter, hquarter]

theorem corner_estimate_degenerate_witness :
    process_sprite_sheet imgOne = some (processTotal imgOne) ∧
    cornerAvgTotal imgOne =
      cornerAvg (getPixel imgOne 0 0) (getPixel imgOne 0 0)
        (getPixel imgOne 0 (imgOne.height - 1)) (getPixel imgOne 0 (imgOne.height - 1)) ∧
    (imgOne.height = 1 →
      cornerAvgTotal imgOne =
        ⟨(getPixel imgOne 0 0).r, (getPixel imgOne 0 0).g, (getPixel imgOne 0 0).b⟩) :=
  corner_estimate_degenerate imgOne (by decide) (by decide) (by decide)

/-! ## The edge-aware apply pass -/

theorem applyRemoveAt_width (img : Image) (c : ℕ × ℕ) :
    (applyRemoveAt img c).width = img.width := rfl

theorem applyRemoveAt_height (img : Image) (c : ℕ × ℕ) :
    (applyRemoveAt img c).height = img.height := rfl

theorem applyRemoveAt_rows_length (img : Image) (c : ℕ × ℕ) :
    (applyRemoveAt img c).rows.length = img.rows.length := by
  unfold applyRemoveAt
  exact List.length_set img.rows c.2 _

theorem applyRemoveAt_rowLen (img : Image) (c : ℕ × ℕ) (y : ℕ) :
    ((applyRemoveAt img c).rows.getD y []).length =
      (img.rows.getD y []).length := by
  unfold applyRemoveAt
  by_cases hy : c.2 = y
  · subst hy
    by_cases hc : c.2 < img.rows.length
    · simp only [List.getD_eq_getElem?_getD, List.getElem?_set_self hc,
        Option.getD_some, List.length_set]
    · rw [List.set_eq_of_length_le (by omega)]
  · simp only [List.getD_eq_getElem?_getD, List.getElem?_set_ne hy]

theorem getD_set_eq_ite {α : Type} (l : List α) (i j : ℕ) (v d : α) :
    (l.set i v).getD j d = if i = j ∧ j < l.length then v else l.getD j d := by
  by_cases hij : i = j
  · subst hij
    by_cases hi : i < l.length
    · simp [List.getD_eq_getElem?_getD, List.getElem?_set_self hi, hi]
    · rw [List.set_eq_of_length_le (by omega)]
      simp [hi]
  · simp [List.getD_eq_getElem?_getD, List.getElem?_set_ne hij, hij]

theorem getPixel_applyRemoveAt (img : Image) (c : ℕ × ℕ) (x y : ℕ) :
    getPixel (applyRemoveAt img c) x y =
      if c = (x, y) ∧ y < img.rows.length ∧ x < (img.rows.getD y []).length
      then zeroAlpha (getPixel img x y) else getPixel img x y := by
  obtain ⟨cx, cy⟩ := c
  show ((img.rows.set cy ((img.rows.getD cy []).set cx
      (zeroAlpha (getPixel img cx cy)))).getD y []).getD x defaultPixel = _
  rw [getD_set_eq_ite]
  by_cases hy : cy = y
  · subst hy
    by_cases hyr : cy < img.rows.length
    · rw [if_pos ⟨rfl, hyr⟩, getD_set_eq_ite]
      by_cases hx : cx = x
      · subst hx
        by_cases hxr : cx < (img.rows.getD cy []).length
        · rw [if_pos ⟨rfl, hxr⟩, if_pos ⟨rfl, hyr, hxr⟩]
        · rw [if_neg (fun h => hxr h.2), if_neg (fun h => hxr h.2.2)]
          rfl
      · rw [if_neg (fun h => hx h.1),
          if_neg (fun h => hx (congrArg Prod.fst h.1))]
        rfl
    · rw [if_neg (fun h => hyr h.2), if_neg (fun h => hyr h.2.1)]
      rfl
  · rw [if_neg (fun h => hy h.1),
      if_neg (fun h => hy (congrArg Prod.snd h.1))]
    rfl

theorem foldl_applyRemoveAt_width (l : List (ℕ × ℕ)) (img : Image) :
    (l.foldl applyRemoveAt img).width = img.width := by
  induction l generalizing img with
  | nil => rfl
  | cons c tl ih => rw [List.foldl_cons, ih, applyRemoveAt_width]

theorem foldl_applyRemoveAt_height (l : List (ℕ × ℕ)) (img : Image) :
    (l.foldl applyRemoveAt img).height = img.height := by
  induction l generalizing img with
  | nil => rfl
  | cons c tl ih => rw [List.foldl_cons, ih, applyRemoveAt_height]

theorem foldl_applyRemoveAt_rows_length (l : List (ℕ × ℕ)) (img : Image) :
    (l.foldl applyRemoveAt img).rows.length = img.rows.length := by
  induction l generalizing img with
  | nil => rfl
  | cons c tl ih => rw [List.foldl_cons, ih, applyRemoveAt_rows_length]

theorem foldl_applyRemoveAt_rowLen (l : List (ℕ × ℕ)) (img : Image) (y : ℕ) :
    ((l.foldl applyRemoveAt img).rows.getD y []).length =
      (img.rows.getD y []).length := by
  induction l generalizing img with
  | nil => rfl
  | cons c tl ih => rw [List.foldl_cons, ih, applyRemoveAt_rowLen]

theorem foldl_applyRemoveAt_getPixel (l : List (ℕ × ℕ)) (img : Image) (x y : ℕ) :
    getPixel (l.foldl applyRemoveAt img) x y =
      if (x, y) ∈ l ∧ y < img.rows.length ∧ x < (img.rows.getD y []).length
      then zeroAlpha (getPixel img x y) else getPixel img x y := by
  induction l generalizing img with
  | nil => simp
  | cons c tl ih =>
    rw [List.foldl_cons, ih (applyRemoveAt img c), applyRemoveAt_rows_length,
      applyRemoveAt_rowLen, getPixel_applyRemoveAt]
    by_cases hyr : y < img.rows.length
    · by_cases hxr : x < (img.rows.getD y []).length
      · by_cases hc : c = (x, y)
        · subst hc
          rw [if_pos (⟨rfl, hyr, hxr⟩ : (x, y) = (x, y) ∧
              y < img.rows.length ∧ x < (img.rows.getD y []).length)]
          rw [zeroAlpha_idem, ite_self,
            if_pos (⟨List.mem_cons_self (x, y) tl, hyr, hxr⟩ :
              (x, y) ∈ (x, y) :: tl ∧
                y < img.rows.length ∧ x < (img.rows.getD y []).length)]
        · rw [if_neg (fun h => hc h.1 :
            ¬(c = (x, y) ∧
              y < img.rows.length ∧ x < (img.rows.getD y []).length))]
          by_cases hmem : (x, y) ∈ tl
          · rw [if_pos (⟨hmem, hyr, hxr⟩ : (x, y) ∈ tl ∧
                y < img.rows.length ∧ x < (img.rows.getD y []).length),
              if_pos (⟨List.mem_cons.mpr (Or.inr hmem), hyr, hxr⟩ :
                (x, y) ∈ c :: tl ∧
                  y < img.rows.length ∧ x < (img.rows.getD y []).length)]
          · rw [if_neg (fun h => hmem h.1 : ¬((x, y) ∈ tl ∧
                y < img.rows.length ∧ x < (img.rows.getD y []).length)),
              if_neg (fun h => (List.mem_cons.mp h.1).elim
                  (fun heq => hc heq.symm) hmem :
                ¬((x, y) ∈ c :: tl ∧
                  y < img.rows.length ∧ x < (img.rows.getD y []).length))]
      · rw [if_neg (fun h => hxr h.2.2), if_neg (fun h => hxr h.2.2),
          if_neg (fun h => hxr h.2.2)]
    · rw [if_neg (fun h => hyr h.2.1), if_neg (fun h => hyr h.2.1),
        if_neg (fun h => hyr h.2.1)]

theorem mem_to_remove (t : ℤ) (img : Image) (x y : ℕ) :
    (x, y) ∈ to_remove t img ↔
      x < img.width ∧ y < img.height ∧
        is_white_ish (getPixel img x y).r (getPixel img x y).g
          (getPixel img x y).b t = true := by
  unfold to_remove
  simp only [List.mem_flatMap, List.mem_filterMap, List.mem_range]
  constructor
  · rintro ⟨y1, hy1, x1, hx1, hsome⟩
    by_cases hw : is_white_ish (getPixel img x1 y1).r (getPixel img x1 y1).g
        (getPixel img x1 y1).b t
    · rw [if_pos hw] at hsome
      have heq := Option.some.inj hsome
      have hx2 : x1 = x := congrArg Prod.fst heq
      have hy2 : y1 = y := congrArg Prod.snd heq
      subst hx2; subst hy2
      exact ⟨hx1, hy1, hw⟩
    · rw [if_neg hw] at hsome
      exact Option.noConfusion hsome
  · rintro ⟨hx, hy, hwhite⟩
    exact ⟨y, hy, x, hx, by rw [if_pos hwhite]⟩

theorem getD_rows_map (img : Image) (f : Pixel → Pixel) (y : ℕ) :
    (img.rows.map (fun row => row.map f)).getD y [] =
      (img.rows.getD y []).map f := by
  simpa using List.getD_map img.rows [] (f := fun row => row.map f) (n := y)

theorem Image_ext_pixels (a b : Image) (hw : a.width = b.width)
    (hh : a.height = b.height) (hlen : a.rows.length = b.rows.length)
    (hrlen : ∀ y, (a.rows.getD y []).length = (b.rows.getD y []).length)
    (hpix : ∀ x y, getPixel a x y = getPixel b x y) : a = b := by
  obtain ⟨aw, ah, arows⟩ := a
  obtain ⟨bw, bh, brows⟩ := b
  simp only at hw hh hlen hrlen hpix ⊢
  subst hw; subst hh
  congr 1
  apply List.ext_getElem?
  intro y
  by_cases hy : y < arows.length
  · have hy' : y < brows.length := by omega
    rw [List.getElem?_eq_getElem hy, List.getElem?_eq_getElem hy']
    have hrl : arows[y].length = brows[y].length := by
      have h := hrlen y
      rwa [List.getD_eq_getElem _ _ hy, List.getD_eq_getElem _ _ hy'] at h
    congr 1
    apply List.ext_getElem?
    intro x
    by_cases hx : x < arows[y].length
    · have hx' : x < brows[y].length := by omega
      rw [List.getElem?_eq_getElem hx, List.getElem?_eq_getElem hx']
      have hp := hpix x y
      rw [getPixel_eq ⟨aw, ah, arows⟩ x y hy hx,
        getPixel_eq ⟨aw, ah, brows⟩ x y hy' hx'] at hp
      rw [hp]
    · rw [List.getElem?_eq_none (by omega), List.getElem?_eq_none (by omega)]
  · rw [List.getElem?_eq_none (by omega), List.getElem?_eq_none (by omega)]

/-- C2: on every well-formed image and for every tolerance, the edge-aware
whitener produces exactly the same output image as the fixed-threshold
whitener with the same tolerance: the collected removal set contains
precisely the near-white coordinates, and zeroing their alphas equals the
per-pixel rewrite, pixel for pixel in RGB and alpha. -/
theorem whiteners_equivalent (t : ℤ) (img : Image) (hwf : WF img) :
    remove_near_white_with_edges t img = remove_white_background t img := by
  unfold remove_near_white_with_edges remove_white_background
  apply Image_ext_pixels
  · rw [foldl_applyRemoveAt_width]
  · rw [foldl_applyRemoveAt_height]
  · rw [foldl_applyRemoveAt_rows_length]
    show img.rows.length = (img.rows.map _).length
    rw [List.length_map]
  · intro y
    rw [foldl_applyRemoveAt_rowLen]
    show (img.rows.getD y []).length =
      ((img.rows.map (fun row => row.map (whitenPixel t))).getD y []).length
    rw [getD_rows_map, List.length_map]
  · intro x y
    rw [foldl_applyRemoveAt_getPixel, getPixel_mapRows_all]
    by_cases hy : y < img.rows.length
    · rw [dif_pos hy]
      by_cases hx : x < img.rows[y].length
      · rw [if_pos hx]
        have hyh : y < img.height := by rw [← hwf.1]; exact hy
        have hxw : x < img.width := by
          rw [← WF_row_length img hwf y hy]; exact hx
        have hxg : x < (img.rows.getD y []).length := by
          rw [List.getD_eq_getElem _ _ hy]; exact hx
        by_cases hwte : is_white_ish (getPixel img x y).r (getPixel img x y).g
            (getPixel img x y).b t
        · rw [if_pos ⟨(mem_to_remove t img x y).mpr ⟨hxw, hyh, hwte⟩, hy, hxg⟩]
          unfold whitenPixel
          rw [if_pos (show isNearWhite t (getPixel img x y) = true from hwte)]
        · rw [if_neg (fun h => hwte ((mem_to_remove t img x y).mp h.1).2.2)]
          unfold whitenPixel
          rw [if_neg (show ¬isNearWhite t (getPixel img x y) = true from hwte)]
      · rw [if_neg hx]
        have hxg : ¬x < (img.rows.getD y []).length := by
          rw [List.getD_eq_getElem _ _ hy]; exact hx
        rw [if_neg (fun h => hxg h.2.2)]
        exact getPixel_default_of_col img x y hy (by omega)
    · rw [dif_neg hy]
      rw [if_neg (fun h => hy h.2.1)]
      exact getPixel_default_of_row img x y (by omega)

theorem whiteners_equivalent_witness :
    remove_near_white_with_edges 30 imgSmall = remove_white_background 30 imgSmall :=
  whiteners_equivalent 30 imgSmall (by decide)
